import Mathlib

/-
Verification of unixsocketqueue.py (krunch3r76/processqueue).

Shallow embedding conventions:
  - Python strings are modelled as List Char (text is a sequence of characters).
  - The multiprocessing queue is modelled as a List of lines in push order;
    put_nowait appends at the tail and get_nowait removes the head, which is
    the linearized behaviour the queue lock guarantees.
  - The listener read loop is modelled as a step function over a list of
    receive events (data, empty read, receive error, decode error).
  - Exceptions are modelled with Except / Option results.
-/

/-! ## The ANSI escape filter: _strip_ansi

The Python code removes every non-overlapping occurrence of the regular
expression  ESC, open bracket, zero or more parameter bytes (0x30 to 0x3F),
zero or more intermediate bytes (0x20 to 0x2F), one final byte (0x40 to 0x7E),
scanning left to right (re.sub with the empty replacement).  The three
character classes are pairwise disjoint, so the greedy scan needs no
backtracking and the match at a given position is unique when it exists. -/

/-- Character class [0-?], code points 0x30 to 0x3F (parameter bytes). -/
def isParamByte (c : Char) : Bool := 0x30 ≤ c.toNat && c.toNat ≤ 0x3F

/-- Character class with code points 0x20 to 0x2F (intermediate bytes). -/
def isIntermediateByte (c : Char) : Bool := 0x20 ≤ c.toNat && c.toNat ≤ 0x2F

/-- Character class [@-~], code points 0x40 to 0x7E (final bytes). -/
def isFinalByte (c : Char) : Bool := 0x40 ≤ c.toNat && c.toNat ≤ 0x7E

/-- Attempt to match the regex (ESC, open bracket, parameter bytes,
intermediate bytes, one final byte) at the head of the character list; on
success return the characters following the match. -/
def matchAnsi : List Char → Option (List Char)
  | c1 :: c2 :: rest =>
    if c1 = '\x1b' ∧ c2 = '[' then
      match (rest.dropWhile isParamByte).dropWhile isIntermediateByte with
      | c :: r3 => if isFinalByte c then some r3 else none
      | [] => none
    else none
  | _ => none

/-- Fuel-indexed scan of re.sub: at each position, if the pattern matches,
drop the matched characters and continue after them; otherwise keep the
character and move one position right.  The fuel only serves termination;
any fuel at least the length of the input gives the same result. -/
def stripAnsiGo : Nat → List Char → List Char
  | 0, s => s
  | _ + 1, [] => []
  | fuel + 1, c :: rest =>
    match matchAnsi (c :: rest) with
    | some r => stripAnsiGo fuel r
    | none => c :: stripAnsiGo fuel rest

/-- Embedding of _strip_ansi: remove every occurrence of the ANSI escape
pattern, scanning left to right with non-overlapping matches. -/
def _strip_ansi (s : List Char) : List Char := stripAnsiGo s.length s

/-! ## The line reassembler: _SocketListener._parse_buffer

The Python code keeps the pending text in an io.StringIO.  _parse_buffer
rewinds the buffer, then repeatedly calls readline: while the returned line
ends with a newline the line minus its final character is pushed, and when
readline returns a line without a trailing newline (possibly empty) that
remainder becomes the new buffer content. -/

/-- Embedding of io.StringIO.readline (newline mode fixed to the newline
character): the first line of the text including its terminating newline if
one is present, together with the remaining characters after it. -/
def readline : List Char → List Char × List Char
  | [] => ([], [])
  | c :: rest =>
    if c = '\n' then ([c], rest)
    else
      let p := readline rest
      (c :: p.1, p.2)

/-- The readline loop of _parse_buffer in one structural recursion: the list
of completed lines (each with its terminating newline removed, in order) and
the unterminated remainder that is written into the fresh buffer. -/
def readLines : List Char → List (List Char) × List Char
  | [] => ([], [])
  | c :: rest =>
    if c = '\n' then
      let p := readLines rest
      ([] :: p.1, p.2)
    else
      match readLines rest with
      | ([], r) => ([], c :: r)
      | (l :: ls, r) => ((c :: l) :: ls, r)

/-- State owned by the listener: the contents pushed so far to the shared
queue (in push order) and the pending StringIO buffer. -/
structure ListenerBuf where
  queue : List (List Char)
  buffer : List Char
deriving DecidableEq

/-- A line as pushed by _parse_buffer: the completed line with its newline
removed, passed through _strip_ansi when the strip flag is set. -/
def emitLine (strip : Bool) (l : List Char) : List Char :=
  if strip then _strip_ansi l else l

/-- Embedding of _SocketListener._parse_buffer: split the buffered text into
completed lines, push each (optionally ANSI-stripped) to the shared queue in
order, and keep the unterminated remainder as the new buffer. -/
def _parse_buffer (strip : Bool) (st : ListenerBuf) : ListenerBuf :=
  { queue := st.queue ++ ((readLines st.buffer).1).map (emitLine strip),
    buffer := (readLines st.buffer).2 }

/-- One iteration of the read loop body of _SocketListener for successfully
decoded text c: write c at the end of the buffer, then run _parse_buffer. -/
def feedChunk (strip : Bool) (st : ListenerBuf) (c : List Char) : ListenerBuf :=
  _parse_buffer strip { st with buffer := st.buffer ++ c }

/-- The listener state after feeding a sequence of decoded chunks in receipt
order, starting from a fresh empty buffer and empty queue. -/
def feedChunks (strip : Bool) (chunks : List (List Char)) : ListenerBuf :=
  chunks.foldl (feedChunk strip) { queue := [], buffer := [] }

/-! ## Splitting on the newline character (the reference notion) -/

/-- Split a character list on the newline character: the segments between
newlines, in order, always ending with the (possibly empty) segment after
the last newline.  Proved below to agree with List.splitOn. -/
def splitOnNl : List Char → List (List Char)
  | [] => [[]]
  | c :: rest =>
    if c = '\n' then [] :: splitOnNl rest
    else
      match splitOnNl rest with
      | [] => [[c]]
      | l :: ls => (c :: l) :: ls

/-- Glue two split results: append the first segment of the second result to
the last segment of the first (the way text concatenation glues the
unterminated tail of the first text onto the first segment of the second). -/
def joinLast : List (List Char) → List (List Char) → List (List Char)
  | [], ys => ys
  | [x], ys =>
    match ys with
    | [] => [x]
    | y :: ys1 => (x ++ y) :: ys1
  | x :: x2 :: xs, ys => x :: joinLast (x2 :: xs) ys

/-! ## The shared queue: multiprocessing.Queue used through put_nowait and
UnixSocketQueue.get_nowait

The queue is used by exactly one producer (the listener process) and the
polling consumer; its internal lock linearizes pushes and pops, so it is
modelled as the list of queued lines in push order. -/

inductive QueueError
  | Empty
deriving DecidableEq

/-- put_nowait: append the line at the tail; always succeeds (unbounded). -/
def put_nowait (q : List (List Char)) (line : List Char) : List (List Char) :=
  q ++ [line]

/-- Embedding of UnixSocketQueue.get_nowait, which delegates to
multiprocessing.Queue.get_nowait and re-raises queue.Empty unchanged: on an
empty queue the Empty error is raised, otherwise the head line is returned
and removed.  It is a total function that returns at once: it never blocks. -/
def get_nowait (q : List (List Char)) :
    Except QueueError (List Char × List (List Char)) :=
  match q with
  | [] => Except.error QueueError.Empty
  | l :: rest => Except.ok (l, rest)

/-! ## Interleaving of the producing listener and the polling consumer -/

/-- An event of the whole system: either the listener receives and parses a
decoded chunk (pushing the completed lines), or the consumer polls once. -/
inductive SysEvent
  | recvChunk (c : List Char)
  | popAttempt
deriving DecidableEq

/-- Global state: the pending listener buffer, the lines currently queued
(in push order), and the lines already returned to the consumer (in return
order). -/
structure SysState where
  buffer : List Char
  queue : List (List Char)
  popped : List (List Char)
deriving DecidableEq

/-- One system step: a received chunk runs the listener loop body on the
current buffer and queue; a poll runs get_nowait, which on an empty queue
raises Empty and leaves the state unchanged, and otherwise moves the head
line to the consumer. -/
def sysStep (strip : Bool) (st : SysState) : SysEvent → SysState
  | SysEvent.recvChunk c =>
    let fed := feedChunk strip { queue := st.queue, buffer := st.buffer } c
    { st with buffer := fed.buffer, queue := fed.queue }
  | SysEvent.popAttempt =>
    match st.queue with
    | [] => st
    | l :: rest => { st with queue := rest, popped := st.popped ++ [l] }

def sysRun (strip : Bool) (events : List SysEvent) : SysState :=
  events.foldl (sysStep strip) { buffer := [], queue := [], popped := [] }

/-- The chunks received in an event interleaving, in receipt order. -/
def chunksOf (events : List SysEvent) : List (List Char) :=
  events.filterMap fun e =>
    match e with
    | SysEvent.recvChunk c => some c
    | SysEvent.popAttempt => none

/-- Project a system state onto the listener view in which nothing was ever
popped: all lines ever pushed, in push order, with the pending buffer. -/
def sysL (st : SysState) : ListenerBuf :=
  { queue := st.popped ++ st.queue, buffer := st.buffer }

/-! ## The listener process life cycle: _SocketListener.__call__ -/

/-- The outcome of one conn.recv call as seen by the loop body: data that
decodes successfully, an empty read (peer disconnect), an error raised by
recv, or a decode failure of received bytes. -/
inductive RecvEvent
  | data (text : List Char)
  | emptyRead
  | recvError
  | decodeError
deriving DecidableEq

inductive ListenerStatus
  | streaming
  | terminated
deriving DecidableEq

structure ListenerProc where
  status : ListenerStatus
  buf : ListenerBuf
deriving DecidableEq

/-- One iteration of the while loop in _SocketListener.__call__.  The body
has no check for an empty read: recv returning the empty byte string decodes
to the empty text, which is written to the buffer and parsed like any other
chunk, and the loop continues.  An error raised by recv or by decode
propagates out of the loop and ends the listener process. -/
def listenerStep (strip : Bool) (st : ListenerProc) (e : RecvEvent) : ListenerProc :=
  match st.status with
  | ListenerStatus.terminated => st
  | ListenerStatus.streaming =>
    match e with
    | RecvEvent.data c => { st with buf := feedChunk strip st.buf c }
    | RecvEvent.emptyRead => { st with buf := feedChunk strip st.buf [] }
    | RecvEvent.recvError => { st with status := ListenerStatus.terminated }
    | RecvEvent.decodeError => { st with status := ListenerStatus.terminated }

def listenerRun (strip : Bool) (events : List RecvEvent) : ListenerProc :=
  events.foldl (listenerStep strip)
    { status := ListenerStatus.streaming, buf := { queue := [], buffer := [] } }

/-! ## Construction and teardown of UnixSocketQueue -/

inductive InitError
  | AddressInUse
deriving DecidableEq

inductive InitAction
  | createSocket
  | bindSocket
  | createQueue
  | startListenerProcess
deriving DecidableEq

/-- Embedding of the control flow of UnixSocketQueue.__init__: after the
path is normalized, the existence check on the path either raises before any
other effect is performed, or the constructor creates the socket, binds it,
creates the shared queue and starts the listener process, in that order. -/
def unixSocketQueueInit (pathExists : Bool) : Except InitError Unit × List InitAction :=
  if pathExists then (Except.error InitError.AddressInUse, [])
  else (Except.ok (), [InitAction.createSocket, InitAction.bindSocket,
    InitAction.createQueue, InitAction.startListenerProcess])

/-- How the unlink call of teardown can go at the filesystem. -/
inductive UnlinkOutcome
  | success
  | fileMissing
  | otherError
deriving DecidableEq

inductive TeardownError
  | unlinkFailed
deriving DecidableEq

structure TeardownResult where
  socketClosed : Bool
  raised : Option TeardownError
deriving DecidableEq

/-- Embedding of UnixSocketQueue.__del__: close the socket handle, then
unlink the socket path with missing_ok set to true, which suppresses only
the file-not-found failure; any other unlink failure raises out of the
method. -/
def unixSocketQueueDel (o : UnlinkOutcome) : TeardownResult :=
  { socketClosed := true,
    raised :=
      match o with
      | UnlinkOutcome.success => none
      | UnlinkOutcome.fileMissing => none
      | UnlinkOutcome.otherError => some TeardownError.unlinkFailed }

/-- The single chunk of the end-to-end scenario of the spec: ESC, bracket,
3, 1, m, hello, ESC, bracket, 0, m, newline, world, newline. -/
def endToEndChunk : List Char :=
  ['\x1b', '[', '3', '1', 'm', 'h', 'e', 'l', 'l', 'o',
   '\x1b', '[', '0', 'm', '\n', 'w', 'o', 'r', 'l', 'd', '\n']

/-- An input on which the ANSI filter is not idempotent: removing the inner
escape sequence glues the leading ESC onto the following bracket, zero, m,
creating a new escape sequence that only a second pass removes. -/
def stripCounterexample : List Char :=
  ['\x1b', '\x1b', '[', '0', 'm', '[', '0', 'm']

/-! ## Properties -/

theorem length_dropWhile_le (p : Char → Bool) : ∀ l : List Char, (l.dropWhile p).length ≤ l.length := by
  intro l
  induction l with
  | nil => simp [List.dropWhile]
  | cons c t ih =>
    simp only [List.dropWhile]
    split
    · exact le_trans ih (Nat.le_succ _)
    · exact le_refl _

theorem matchAnsi_length : ∀ {s r : List Char}, matchAnsi s = some r → r.length + 2 ≤ s.length
  | [], _, h => by simp [matchAnsi] at h
  | [_], _, h => by simp [matchAnsi] at h
  | c1 :: c2 :: rest, r, h => by
    simp only [matchAnsi] at h
    split at h
    · split at h
      · rename_i heq
        split at h
        · cases h
          have h1 : ((rest.dropWhile isParamByte).dropWhile isIntermediateByte).length
              ≤ rest.length :=
            le_trans (length_dropWhile_le _ _) (length_dropWhile_le _ _)
          rw [heq] at h1
          simp only [List.length_cons] at h1
          simp only [List.length_cons]
          omega
        · exact absurd h (by simp)
      · exact absurd h (by simp)
    · exact absurd h (by simp)

theorem stripAnsiGo_nil : ∀ f, stripAnsiGo f [] = []
  | 0 => rfl
  | _ + 1 => rfl

theorem stripAnsiGo_fuel : ∀ (f1 f2 : Nat) (s : List Char),
    s.length ≤ f1 → s.length ≤ f2 → stripAnsiGo f1 s = stripAnsiGo f2 s := by
  intro f1
  induction f1 with
  | zero =>
    intro f2 s h1 _
    have hs : s = [] := List.eq_nil_of_length_eq_zero (Nat.le_zero.mp h1)
    subst hs
    rw [stripAnsiGo_nil, stripAnsiGo_nil]
  | succ n ih =>
    intro f2 s h1 h2
    match s, f2 with
    | [], f2 => rw [stripAnsiGo_nil, stripAnsiGo_nil]
    | c :: rest, 0 => simp at h2
    | c :: rest, m + 1 =>
      simp only [stripAnsiGo]
      simp only [List.length_cons] at h1 h2
      cases hm : matchAnsi (c :: rest) with
      | some r =>
        have hr := matchAnsi_length hm
        simp only [List.length_cons] at hr
        exact ih m r (by omega) (by omega)
      | none =>
        exact congrArg (c :: ·) (ih m rest (by omega) (by omega))

theorem strip_ansi_nil : _strip_ansi [] = [] := rfl

theorem strip_ansi_cons (c : Char) (rest : List Char) :
    _strip_ansi (c :: rest) =
      match matchAnsi (c :: rest) with
      | some r => _strip_ansi r
      | none => c :: _strip_ansi rest := by
  show stripAnsiGo (rest.length + 1) (c :: rest) = _
  simp only [stripAnsiGo]
  cases hm : matchAnsi (c :: rest) with
  | some r =>
    have hr := matchAnsi_length hm
    simp only [List.length_cons] at hr
    exact stripAnsiGo_fuel rest.length r.length r (by omega) (le_refl _)
  | none => rfl

theorem matchAnsi_none_of_head {c : Char} (rest : List Char) (hc : c ≠ '\x1b') :
    matchAnsi (c :: rest) = none := by
  cases rest with
  | nil => rfl
  | cons c2 r => simp [matchAnsi, hc]

/-- A string containing no ESC character is a fixed point of the filter. -/
theorem strip_ansi_of_not_mem : ∀ (s : List Char), '\x1b' ∉ s → _strip_ansi s = s := by
  intro s
  induction s with
  | nil => intro _; rfl
  | cons c rest ih =>
    intro h
    have hc : c ≠ '\x1b' := fun hc => h (hc ▸ List.mem_cons_self c rest)
    rw [strip_ansi_cons, matchAnsi_none_of_head rest hc]
    exact congrArg (c :: ·) (ih fun hm => h (List.mem_cons_of_mem _ hm))

/-- Faithfulness of readLines to the loop in the source: one loop iteration
reads a line; if it ends with a newline the line minus that newline is
emitted and the loop continues on the rest, otherwise the loop stops and the
line (the whole remaining text) is the remainder. -/
theorem readLines_loop_step : ∀ s : List Char,
    readLines s =
      if (readline s).1.getLast? = some '\n' then
        ((readline s).1.dropLast :: (readLines (readline s).2).1,
          (readLines (readline s).2).2)
      else ([], (readline s).1) := by
  intro s
  induction s with
  | nil => simp [readline, readLines]
  | cons c rest ih =>
    by_cases hc : c = '\n'
    · subst hc
      simp [readline, readLines]
    · cases hrest : readline rest with
      | mk l1 r1 =>
        rw [hrest] at ih
        have hread : readline (c :: rest) = (c :: l1, r1) := by
          simp [readline, hc, hrest]
        rw [hread]
        by_cases hl : l1.getLast? = some '\n'
        · have hne : l1 ≠ [] := by
            intro h0; rw [h0] at hl; simp at hl
          rw [if_pos hl] at ih
          obtain ⟨a, t, rfl⟩ := List.exists_cons_of_ne_nil hne
          rw [if_pos (by rw [List.getLast?_cons_cons]; exact hl)]
          simp only [readLines, if_neg hc, ih, List.dropLast_cons₂]
        · rw [if_neg hl] at ih
          have hcl : ¬ (c :: l1).getLast? = some '\n' := by
            cases l1 with
            | nil => simpa using hc
            | cons a t => rw [List.getLast?_cons_cons]; exact hl
          rw [if_neg hcl]
          simp only [readLines, if_neg hc, ih]

theorem splitOnNl_ne_nil : ∀ s : List Char, splitOnNl s ≠ [] := by
  intro s
  cases s with
  | nil => simp [splitOnNl]
  | cons c rest =>
    simp only [splitOnNl]
    split
    · simp
    · split
      · simp
      · simp

theorem splitOnNl_eq_splitOn : ∀ s : List Char, splitOnNl s = s.splitOn '\n' := by
  intro s
  induction s with
  | nil => simp [splitOnNl, List.splitOn, List.splitOnP_nil]
  | cons c rest ih =>
    rw [List.splitOn, List.splitOnP_cons]
    by_cases hc : c = '\n'
    · subst hc
      simp only [splitOnNl, if_pos rfl]
      rw [ih, List.splitOn]
      simp
    · have hbeq : (c == '\n') = false := beq_false_of_ne hc
      rw [hbeq]
      simp only [splitOnNl, if_neg hc]
      rw [ih, List.splitOn]
      cases hsp : rest.splitOnP (· == '\n') with
      | nil => exact absurd hsp (List.splitOnP_ne_nil _ _)
      | cons l ls => simp [List.modifyHead]

theorem readLines_nl (rest : List Char) :
    readLines ('\n' :: rest) = ([] :: (readLines rest).1, (readLines rest).2) := rfl

theorem readLines_cons_ne (c : Char) (rest : List Char) (hc : c ≠ '\n') :
    readLines (c :: rest) =
      (match readLines rest with
       | ([], r) => ([], c :: r)
       | (l :: ls, r) => ((c :: l) :: ls, r)) := by
  simp [readLines, hc]

theorem splitOnNl_nl (rest : List Char) :
    splitOnNl ('\n' :: rest) = [] :: splitOnNl rest := rfl

theorem splitOnNl_cons_ne (c : Char) (rest : List Char) (hc : c ≠ '\n') :
    splitOnNl (c :: rest) =
      (match splitOnNl rest with
       | [] => [[c]]
       | l :: ls => (c :: l) :: ls) := by
  simp [splitOnNl, hc]

/-- The lines produced by the readline loop followed by the remainder are
exactly the segments of the buffered text split on the newline character. -/
theorem readLines_eq_splitOnNl : ∀ s : List Char,
    (readLines s).1 ++ [(readLines s).2] = splitOnNl s := by
  intro s
  induction s with
  | nil => rfl
  | cons c rest ih =>
    by_cases hc : c = '\n'
    · subst hc
      rw [readLines_nl, splitOnNl_nl]
      simp only [List.cons_append]
      rw [ih]
    · rw [readLines_cons_ne c rest hc, splitOnNl_cons_ne c rest hc]
      cases hq : readLines rest with
      | mk ls r =>
        rw [hq] at ih
        cases ls with
        | nil =>
          rw [← ih]
          rfl
        | cons l ls1 =>
          rw [← ih]
          rfl

theorem joinLast_cons_of_ne_nil {xs : List (List Char)} (x : List Char)
    (ys : List (List Char)) (h : xs ≠ []) :
    joinLast (x :: xs) ys = x :: joinLast xs ys := by
  cases xs with
  | nil => exact absurd rfl h
  | cons a t => rfl

theorem joinLast_append (q : List (List Char)) (b : List Char)
    (z : List (List Char)) : joinLast (q ++ [b]) z = q ++ joinLast [b] z := by
  induction q with
  | nil => rfl
  | cons a t ih =>
    rw [List.cons_append, joinLast_cons_of_ne_nil a z (by simp), ih, List.cons_append]

/-- Splitting a concatenation on newlines splits both parts and glues the
boundary segments. -/
theorem splitOnNl_append : ∀ x y : List Char,
    splitOnNl (x ++ y) = joinLast (splitOnNl x) (splitOnNl y) := by
  intro x y
  induction x with
  | nil =>
    rw [List.nil_append]
    cases hz : splitOnNl y with
    | nil => exact absurd hz (splitOnNl_ne_nil y)
    | cons h t => rfl
  | cons c x1 ih =>
    by_cases hc : c = '\n'
    · subst hc
      rw [List.cons_append, splitOnNl_nl, splitOnNl_nl, ih,
        joinLast_cons_of_ne_nil _ _ (splitOnNl_ne_nil x1)]
    · rw [List.cons_append, splitOnNl_cons_ne c (x1 ++ y) hc,
        splitOnNl_cons_ne c x1 hc, ih]
      cases hx : splitOnNl x1 with
      | nil => exact absurd hx (splitOnNl_ne_nil x1)
      | cons l ls =>
        cases ls with
        | nil =>
          cases hy : splitOnNl y with
          | nil => exact absurd hy (splitOnNl_ne_nil y)
          | cons m ms => rfl
        | cons l2 ls2 => rfl

/-- Every segment produced by splitting on newlines is newline free. -/
theorem not_mem_of_mem_splitOnNl : ∀ (s l : List Char), l ∈ splitOnNl s → '\n' ∉ l := by
  intro s
  induction s with
  | nil =>
    intro l hl
    simp [splitOnNl] at hl
    simp [hl]
  | cons c rest ih =>
    intro l hl
    by_cases hc : c = '\n'
    · subst hc
      rw [splitOnNl_nl] at hl
      cases hl with
      | head => simp
      | tail _ h => exact ih l h
    · rw [splitOnNl_cons_ne c rest hc] at hl
      cases hx : splitOnNl rest with
      | nil => exact absurd hx (splitOnNl_ne_nil rest)
      | cons m ms =>
        rw [hx] at hl
        cases hl with
        | head =>
          intro hmem
          cases hmem with
          | head => exact hc rfl
          | tail _ hm =>
            exact ih m (by rw [hx]; exact List.mem_cons_self m ms) hm
        | tail _ h => exact ih l (by rw [hx]; exact List.mem_cons_of_mem m h)

/-- A newline-free text splits into the single segment equal to itself. -/
theorem splitOnNl_of_not_mem : ∀ s : List Char, '\n' ∉ s → splitOnNl s = [s] := by
  intro s
  induction s with
  | nil => intro _; rfl
  | cons c rest ih =>
    intro h
    have hc : c ≠ '\n' := fun hc => h (hc ▸ List.mem_cons_self c rest)
    rw [splitOnNl_cons_ne c rest hc, ih fun hm => h (List.mem_cons_of_mem _ hm)]

/-- The remainder kept by the readline loop never contains a newline. -/
theorem readLines_snd_not_mem (s : List Char) : '\n' ∉ (readLines s).2 :=
  not_mem_of_mem_splitOnNl s (readLines s).2
    (by rw [← readLines_eq_splitOnNl s]
        exact List.mem_append_right _ (List.mem_cons_self _ _))

/-- On newline-free text the readline loop emits nothing and keeps the text. -/
theorem readLines_of_not_mem : ∀ s : List Char, '\n' ∉ s → readLines s = ([], s) := by
  intro s
  induction s with
  | nil => intro _; rfl
  | cons c rest ih =>
    intro h
    have hc : c ≠ '\n' := fun hc => h (hc ▸ List.mem_cons_self c rest)
    rw [readLines_cons_ne c rest hc, ih fun hm => h (List.mem_cons_of_mem _ hm)]

theorem map_emitLine_false (ls : List (List Char)) : ls.map (emitLine false) = ls := by
  induction ls with
  | nil => rfl
  | cons l t ih =>
    simp only [List.map_cons, ih]
    rfl

/-- One read-loop iteration with ANSI stripping off keeps the split
invariant: the queue contents followed by the pending buffer are the
newline-split segments of all text consumed so far. -/
theorem feedChunk_false_split (st : ListenerBuf) (c consumed : List Char)
    (h : splitOnNl consumed = st.queue ++ [st.buffer]) :
    splitOnNl (consumed ++ c) =
      (feedChunk false st c).queue ++ [(feedChunk false st c).buffer] := by
  have hb : '\n' ∉ st.buffer :=
    not_mem_of_mem_splitOnNl consumed st.buffer
      (by rw [h]; exact List.mem_append_right _ (List.mem_cons_self _ _))
  show splitOnNl (consumed ++ c) =
      (st.queue ++ ((readLines (st.buffer ++ c)).1).map (emitLine false)) ++
        [(readLines (st.buffer ++ c)).2]
  rw [map_emitLine_false, List.append_assoc, readLines_eq_splitOnNl,
    splitOnNl_append consumed c, h, joinLast_append,
    splitOnNl_append st.buffer c, splitOnNl_of_not_mem st.buffer hb]

theorem feed_foldl_split : ∀ (chunks : List (List Char)) (st : ListenerBuf)
    (consumed : List Char),
    splitOnNl consumed = st.queue ++ [st.buffer] →
    splitOnNl (consumed ++ chunks.flatten) =
      (chunks.foldl (feedChunk false) st).queue ++
        [(chunks.foldl (feedChunk false) st).buffer] := by
  intro chunks
  induction chunks with
  | nil =>
    intro st consumed h
    simpa using h
  | cons c cs ih =>
    intro st consumed h
    have hj : (c :: cs).flatten = c ++ cs.flatten := rfl
    rw [hj, ← List.append_assoc, List.foldl_cons]
    exact ih (feedChunk false st c) (consumed ++ c) (feedChunk_false_split st c consumed h)

theorem sysL_step_chunk (strip : Bool) (st : SysState) (c : List Char) :
    sysL (sysStep strip st (SysEvent.recvChunk c)) = feedChunk strip (sysL st) c := by
  show ListenerBuf.mk
      (st.popped ++ (st.queue ++ ((readLines (st.buffer ++ c)).1).map (emitLine strip)))
      ((readLines (st.buffer ++ c)).2) =
    ListenerBuf.mk
      ((st.popped ++ st.queue) ++ ((readLines (st.buffer ++ c)).1).map (emitLine strip))
      ((readLines (st.buffer ++ c)).2)
  rw [List.append_assoc]

theorem sysL_step_pop (strip : Bool) (st : SysState) :
    sysL (sysStep strip st SysEvent.popAttempt) = sysL st := by
  show sysL (match st.queue with
    | [] => st
    | l :: rest => { st with queue := rest, popped := st.popped ++ [l] }) = sysL st
  cases hq : st.queue with
  | nil => rfl
  | cons l rest =>
    show ListenerBuf.mk ((st.popped ++ [l]) ++ rest) st.buffer =
      ListenerBuf.mk (st.popped ++ st.queue) st.buffer
    rw [hq, List.append_assoc]
    rfl

/-- Pops never disturb what was pushed: running any interleaving and then
forgetting the split between popped and queued lines gives exactly the
listener run over the received chunks alone. -/
theorem sysRun_foldl (strip : Bool) : ∀ (events : List SysEvent) (st : SysState),
    sysL (events.foldl (sysStep strip) st) =
      (chunksOf events).foldl (feedChunk strip) (sysL st) := by
  intro events
  induction events with
  | nil => intro st; rfl
  | cons e es ih =>
    intro st
    rw [List.foldl_cons]
    cases e with
    | recvChunk c =>
      have hch : chunksOf (SysEvent.recvChunk c :: es) = c :: chunksOf es := rfl
      rw [hch, List.foldl_cons, ← sysL_step_chunk strip st c]
      exact ih _
    | popAttempt =>
      have hch : chunksOf (SysEvent.popAttempt :: es) = chunksOf es := rfl
      rw [hch, ← sysL_step_pop strip st]
      exact ih _

/-- The pending buffer stays newline free across any run of the read loop. -/
theorem foldl_feedChunk_buffer_not_mem (strip : Bool) :
    ∀ (chunks : List (List Char)) (st : ListenerBuf), '\n' ∉ st.buffer →
      '\n' ∉ (chunks.foldl (feedChunk strip) st).buffer := by
  intro chunks
  induction chunks with
  | nil => intro st h; exact h
  | cons c cs ih =>
    intro st _
    rw [List.foldl_cons]
    exact ih _ (readLines_snd_not_mem _)

/-- Sanity check of the spec example: feeding foo then bar-newline yields
exactly one line foobar; feeding foo alone yields none. -/
theorem partial_line_retention_example :
    (feedChunks false [['f', 'o', 'o'], ['b', 'a', 'r', '\n']]).queue =
        [['f', 'o', 'o', 'b', 'a', 'r']] ∧
      (feedChunks false [['f', 'o', 'o']]).queue = [] := ⟨rfl, rfl⟩

/-- Claim C1: for every sequence of text chunks fed to the line reassembler
in receipt order, splitting the concatenation of those chunks on the newline
character reproduces exactly the sequence of lines emitted (each emitted
with its terminating newline stripped), in order, plus one trailing
unterminated remainder that is retained in the buffer and not emitted; in
particular the emitted lines depend only on the concatenation and not on how
it was split into chunks. -/
theorem C1_reassembly (chunks : List (List Char)) :
    (chunks.flatten).splitOn '\n' =
      (feedChunks false chunks).queue ++ [(feedChunks false chunks).buffer] := by
  rw [← splitOnNl_eq_splitOn]
  have h0 : splitOnNl ([] : List Char) = ([] : List (List Char)) ++ [[]] := rfl
  have h := feed_foldl_split chunks { queue := [], buffer := [] } [] h0
  simpa [feedChunks] using h

/-- Claim C2: for any interleaving of pushes by the single listener producer
and pops by the consumer, the lines returned by pop, in order, followed by
the lines still queued are exactly the lines pushed, in push order, which is
the order in which their terminating bytes arrived; in particular the popped
sequence is a prefix of the pushed sequence (FIFO, no reordering). -/
theorem C2_fifo (strip : Bool) (events : List SysEvent) :
    (sysRun strip events).popped ++ (sysRun strip events).queue =
        (feedChunks strip (chunksOf events)).queue ∧
      (sysRun strip events).popped <+: (feedChunks strip (chunksOf events)).queue := by
  have h := sysRun_foldl strip events { buffer := [], queue := [], popped := [] }
  have hq : (sysRun strip events).popped ++ (sysRun strip events).queue =
      (feedChunks strip (chunksOf events)).queue :=
    congrArg ListenerBuf.queue h
  exact ⟨hq, (sysRun strip events).queue, hq⟩

/-- Claim C3: get_nowait on a queue holding no pending lines raises the
Empty error; after a push onto it the next get_nowait returns exactly the
pushed line and removes it; get_nowait never blocks (it is total and
returns at once). -/
theorem C3_empty_contract (l : List Char) :
    get_nowait ([] : List (List Char)) = Except.error QueueError.Empty ∧
      get_nowait (put_nowait [] l) = Except.ok (l, ([] : List (List Char))) :=
  ⟨rfl, rfl⟩

/-- Claim C4: the peer sends the single chunk ESC-bracket-31m hello
ESC-bracket-0m newline world newline with ANSI stripping enabled: the queue
then holds hello and world, the first two polls return hello then world, and
a third poll before more data arrives raises Empty. -/
theorem C4_end_to_end :
    (feedChunk true { queue := [], buffer := [] } endToEndChunk).queue =
        [['h', 'e', 'l', 'l', 'o'], ['w', 'o', 'r', 'l', 'd']] ∧
      (feedChunk true { queue := [], buffer := [] } endToEndChunk).buffer = [] ∧
      get_nowait [['h', 'e', 'l', 'l', 'o'], ['w', 'o', 'r', 'l', 'd']] =
        Except.ok (['h', 'e', 'l', 'l', 'o'], [['w', 'o', 'r', 'l', 'd']]) ∧
      get_nowait [['w', 'o', 'r', 'l', 'd']] =
        Except.ok (['w', 'o', 'r', 'l', 'd'], ([] : List (List Char))) ∧
      get_nowait ([] : List (List Char)) = Except.error QueueError.Empty :=
  ⟨rfl, rfl, rfl, rfl, rfl⟩

/-- Counterexample to claim C5: the filter is not idempotent.  On the input
ESC ESC bracket 0 m bracket 0 m, the first strip removes the inner escape
sequence and yields ESC bracket 0 m, which a second strip removes entirely:
removal can juxtapose characters into a new escape sequence. -/
theorem C5_counterexample :
    _strip_ansi (_strip_ansi stripCounterexample) ≠ _strip_ansi stripCounterexample := by
  decide

/-- Claim C5 as amended: the filter is idempotent on every string whose
stripped form contains no remaining ESC character (in particular on every
ESC-free string); unrestricted idempotence fails by the counterexample. -/
theorem C5_amended (s : List Char) (h : '\x1b' ∉ _strip_ansi s) :
    _strip_ansi (_strip_ansi s) = _strip_ansi s :=
  strip_ansi_of_not_mem _ h

theorem C5_amended_witness :
    '\x1b' ∉ _strip_ansi ['\x1b', '[', '3', '1', 'm', 'h', 'i'] ∧
      _strip_ansi (_strip_ansi ['\x1b', '[', '3', '1', 'm', 'h', 'i']) =
        _strip_ansi ['\x1b', '[', '3', '1', 'm', 'h', 'i'] :=
  ⟨by decide, C5_amended ['\x1b', '[', '3', '1', 'm', 'h', 'i'] (by decide)⟩

/-- Claim C6 evaluated at the failing input: contrary to the claim, a peer
disconnect producing an empty read does not terminate the read loop; the
loop is still streaming afterwards and a later data event is still processed
and pushes a line.  A receive error and a decode failure do terminate the
loop and freeze the queue. -/
theorem C6_empty_read_not_terminal :
    (listenerRun false [RecvEvent.emptyRead]).status = ListenerStatus.streaming ∧
      (listenerRun false [RecvEvent.emptyRead, RecvEvent.data ['a', '\n']]).buf.queue
        = [['a']] ∧
      (listenerRun false [RecvEvent.recvError, RecvEvent.data ['a', '\n']]).status
        = ListenerStatus.terminated ∧
      (listenerRun false [RecvEvent.recvError, RecvEvent.data ['a', '\n']]).buf.queue
        = [] ∧
      (listenerRun false [RecvEvent.decodeError, RecvEvent.data ['a', '\n']]).buf.queue
        = [] :=
  ⟨rfl, rfl, rfl, rfl, rfl⟩

/-- Claim C7: constructing against a path at which an object already exists
raises the address-in-use error, and no socket creation (indeed no effect at
all) is performed. -/
theorem C7_construction_guard :
    unixSocketQueueInit true = (Except.error InitError.AddressInUse, []) ∧
      InitAction.createSocket ∉ (unixSocketQueueInit true).2 :=
  ⟨rfl, by decide⟩

/-- Claim C8: after every feed and parse step the pending buffer never
contains a newline character; newline-containing content is split off and
emitted, leaving only the unterminated remainder. -/
theorem C8_buffer_newline_free (strip : Bool) (chunks : List (List Char)) :
    '\n' ∉ (feedChunks strip chunks).buffer :=
  foldl_feedChunk_buffer_not_mem strip chunks { queue := [], buffer := [] } (by simp)

/-- Counterexample to claim C9: not every removal failure is suppressed.
The unlink call passes missing_ok, which suppresses only the file-not-found
case; any other removal failure (for example a permission error) raises out
of the teardown method. -/
theorem C9_counterexample :
    (unixSocketQueueDel UnlinkOutcome.otherError).raised ≠ none := by
  decide

/-- Claim C9 as amended: teardown always closes the socket handle and
unlinks the path; a removal failure caused by the file being already absent
is suppressed, but any other removal failure is raised out of the teardown
method rather than suppressed. -/
theorem C9_amended (o : UnlinkOutcome) :
    (unixSocketQueueDel o).socketClosed = true ∧
      ((unixSocketQueueDel o).raised = none ↔ o ≠ UnlinkOutcome.otherError) := by
  cases o <;> simp [unixSocketQueueDel]

/-- Claim C10: feeding an empty chunk (the decoded form of an empty receive)
is a no-op on a buffer satisfying the newline-free invariant: no line is
emitted and the queue and the pending buffer are left exactly unchanged. -/
theorem C10_empty_chunk_noop (strip : Bool) (st : ListenerBuf)
    (h : '\n' ∉ st.buffer) : feedChunk strip st [] = st := by
  show ListenerBuf.mk
      (st.queue ++ ((readLines (st.buffer ++ [])).1).map (emitLine strip))
      ((readLines (st.buffer ++ [])).2) = st
  rw [List.append_nil, readLines_of_not_mem st.buffer h]
  simp

theorem C10_witness :
    '\n' ∉ ['a', 'b'] ∧
      feedChunk false { queue := [['x']], buffer := ['a', 'b'] } [] =
        { queue := [['x']], buffer := ['a', 'b'] } :=
  ⟨by decide, C10_empty_chunk_noop false { queue := [['x']], buffer := ['a', 'b'] }
    (by decide)⟩
